import Mathlib

/-!
Verification of the Bloom-filter implementation in `bloomfilter.py`.

The Python class `BloomFilter` is embedded shallowly:

* items ("bytes like object (string)") are byte sequences, modelled as
  `List ℕ` with each byte taken modulo 256;
* `mmh3.hash(item, seed)` (the external `mmh3` dependency, MurmurHash3
  x86 32-bit, returning a signed 32-bit integer as the Python binding
  does) is implemented bit-faithfully over `ℕ` with explicit
  reductions modulo `2^32`;
* Python `int` is `ℤ`, Python `float` arithmetic in the two sizing
  formulas is modelled over `ℝ` with `Real.log`, and Python's `int()`
  conversion is `intTrunc` (truncation toward zero);
* the `bitarray` field is a `List Bool`;
* the constructor `__init__` is `initBF`, returning `Except InitError`
  to model the exceptions Python raises on degenerate parameters
  (`math.log` domain error for `fp_prob ≤ 0`, `ZeroDivisionError` for
  `items_count = 0` in `get_hash_count`, and a negative `bitarray`
  length), in the order the Python statements execute;
* `add` and `check` are the two methods, and `runOps` replays an
  arbitrary sequence of `add`/`check` calls.
-/

/-- Reduction modulo `2 ^ 32`, the implicit wrap-around of every
`uint32_t` operation inside MurmurHash3 x86 32-bit. -/
def mask32 (x : ℕ) : ℕ := x % 4294967296

/-- 32-bit left rotation, `(x << r) | (x >> (32 - r))` on `uint32_t`. -/
def rotl32 (x r : ℕ) : ℕ := mask32 ((x <<< r) ||| (x >>> (32 - r)))

/-- MurmurHash3 block mix: `k *= c1; k = rotl(k,15); k *= c2`. -/
def mixK1 (k1 : ℕ) : ℕ := mask32 (rotl32 (mask32 (k1 * 0xcc9e2d51)) 15 * 0x1b873593)

/-- MurmurHash3 body step for the accumulator:
`h ^= mixK1 k; h = rotl(h,13); h = h*5 + 0xe6546b64`. -/
def mixH1 (h1 k1 : ℕ) : ℕ :=
  mask32 (rotl32 (mask32 (h1 ^^^ mixK1 k1)) 13 * 5 + 0xe6546b64)

/-- MurmurHash3 finalization mix (fmix32). -/
def fmix32 (h : ℕ) : ℕ :=
  let h1 := mask32 ((h ^^^ (h >>> 16)) * 0x85ebca6b)
  let h2 := mask32 ((h1 ^^^ (h1 >>> 13)) * 0xc2b2ae35)
  mask32 (h2 ^^^ (h2 >>> 16))

/-- Process the full 4-byte little-endian blocks of the input. -/
def murmurBody (h1 : ℕ) : List ℕ → ℕ
  | b0 :: b1 :: b2 :: b3 :: rest =>
      murmurBody (mixH1 h1
        (b0 % 256 + b1 % 256 * 256 + b2 % 256 * 65536 + b3 % 256 * 16777216)) rest
  | _ => h1

/-- The at-most-three bytes left after the 4-byte blocks. -/
def tailBytes : List ℕ → List ℕ
  | _ :: _ :: _ :: _ :: rest => tailBytes rest
  | l => l

/-- Assemble the tail bytes little-endian (the `k1` of the tail switch). -/
def tailK1 : List ℕ → ℕ
  | [b0] => b0 % 256
  | [b0, b1] => b0 % 256 + b1 % 256 * 256
  | [b0, b1, b2] => b0 % 256 + b1 % 256 * 256 + b2 % 256 * 65536
  | _ => 0

/-- MurmurHash3 x86 32-bit of a byte sequence, unsigned result. -/
def mmh3u32 (bs : List ℕ) (seed : ℕ) : ℕ :=
  let hBody := murmurBody (mask32 seed) bs
  let t := tailBytes bs
  let hTail := if t = [] then hBody else mask32 (hBody ^^^ mixK1 (tailK1 t))
  fmix32 (mask32 (hTail ^^^ mask32 bs.length))

/-- `mmh3.hash(item, seed)` as the Python binding returns it: the 32-bit
hash reinterpreted as a signed 32-bit integer. -/
def mmh3hash (bs : List ℕ) (seed : ℕ) : ℤ :=
  let u := mmh3u32 bs seed
  if u < 2147483648 then (u : ℤ) else (u : ℤ) - 4294967296

/-- The `BloomFilter` object: fields `fp_prob`, `size`, `hash_count`,
`bit_array` of `bloomfilter.py`. -/
@[ext] structure BloomFilter where
  fp_prob : ℝ
  size : ℤ
  hash_count : ℤ
  bit_array : List Bool

/-- Python's `int()` applied to a float: truncation toward zero. -/
noncomputable def intTrunc (x : ℝ) : ℤ := if 0 ≤ x then ⌊x⌋ else ⌈x⌉

namespace BloomFilter

/-- `get_size(n, p)`: `int(-(n * math.log(p)) / (math.log(2) ** 2))`. -/
noncomputable def get_size (n : ℤ) (p : ℝ) : ℤ :=
  intTrunc (-((n : ℝ) * Real.log p) / Real.log 2 ^ 2)

/-- `get_hash_count(m, n)`: `int((m / n) * math.log(2))` (`/` is Python
float division). -/
noncomputable def get_hash_count (m n : ℤ) : ℤ :=
  intTrunc ((m : ℝ) / (n : ℝ) * Real.log 2)

/-- The exceptions `__init__` can raise: `math.log` on a non-positive
argument, `m / n` with `n = 0`, and `bitarray` of a negative length. -/
inductive InitError : Type
  | logDomain : InitError
  | zeroDivision : InitError
  | negativeLength : InitError
deriving DecidableEq

/-- `__init__(items_count, fp_prob)`: stores `fp_prob`, derives `size`
and `hash_count`, allocates the all-zero bit array.  Failure cases in
the order the Python statements hit them.  The sizing arithmetic is
modelled over exact reals, so the `OverflowError` CPython raises when
`items_count` exceeds the double range (about `1.8e308`) during the
int-to-float conversion in `n * math.log(p)` is not modelled; theorems
that conclude success therefore restrict `items_count` to `≤ 2^53`,
where the conversion is exact and no intermediate float can overflow.
Where `initBF ... = .ok f` is only a hypothesis this collapse merely
enlarges the set of states covered. -/
noncomputable def initBF (items_count : ℤ) (fp_prob : ℝ) :
    Except InitError BloomFilter :=
  if fp_prob ≤ 0 then .error .logDomain
  else
    let size := get_size items_count fp_prob
    if items_count = 0 then .error .zeroDivision
    else
      let k := get_hash_count size items_count
      if size < 0 then .error .negativeLength
      else .ok ⟨fp_prob, size, k, List.replicate size.toNat false⟩

/-- `add(item)`: for `i in range(hash_count)`, set
`bit_array[mmh3.hash(item, i) % size] = True`. -/
def add (f : BloomFilter) (item : List ℕ) : BloomFilter :=
  { f with bit_array :=
      ((List.range f.hash_count.toNat).foldl
        (fun bits i => bits.set (mmh3hash item i % f.size).toNat true) f.bit_array) }

/-- The loop of `check`: scan the rounds in order, returning `False` at
the first unset bit. -/
def checkFrom (f : BloomFilter) (item : List ℕ) : List ℕ → Bool
  | [] => true
  | i :: rest =>
      if f.bit_array.getD (mmh3hash item i % f.size).toNat false = false then false
      else checkFrom f item rest

/-- `check(item)`: for `i in range(hash_count)`, if
`bit_array[mmh3.hash(item, i) % size]` is `False` return `False`;
otherwise return `True`. -/
def check (f : BloomFilter) (item : List ℕ) : Bool :=
  checkFrom f item (List.range f.hash_count.toNat)

/-- The list `digests` that `add` accumulates: the hash-derived bit
positions (as Python ints) probed for `item`. -/
def digests (f : BloomFilter) (item : List ℕ) : List ℤ :=
  (List.range f.hash_count.toNat).map (fun i => mmh3hash item i % f.size)

/-- The same positions as array indices. -/
def digestIndices (f : BloomFilter) (item : List ℕ) : List ℕ :=
  (f.digests item).map Int.toNat

/-- A filter state on which the Python methods run without raising:
the bit array has its declared length, and a positive round count only
occurs with a positive array size (`% 0` and out-of-range indexing are
unreachable).  Every state `initBF` produces is of this shape. -/
def WF (f : BloomFilter) : Prop :=
  f.bit_array.length = f.size.toNat ∧ (0 < f.size ∨ f.hash_count ≤ 0)

instance (f : BloomFilter) : Decidable f.WF := by
  unfold WF; infer_instance

end BloomFilter

/-- One call against the filter: `add` mutates it, `check` (read-only)
leaves the state as it was. -/
inductive Op : Type
  | add (item : List ℕ) : Op
  | check (item : List ℕ) : Op

/-- State after one call. -/
def runOp (f : BloomFilter) : Op → BloomFilter
  | .add x => f.add x
  | .check _ => f

/-- Replay a sequence of calls. -/
def runOps (f : BloomFilter) (ops : List Op) : BloomFilter :=
  ops.foldl runOp f

/-- Set every listed index of a boolean list to `true` (the cumulative
effect of the assignments `add` performs). -/
def setBits (bits : List Bool) (ds : List ℕ) : List Bool :=
  ds.foldl (fun b d => b.set d true) bits

/-- Read bit `j`, `false` past the end (in-range in every reachable
use). -/
def getBit (bits : List Bool) (j : ℕ) : Bool :=
  bits.getD j false

/-- Call `add` with the same item `N` times in a row. -/
def addTimes (f : BloomFilter) (x : List ℕ) : ℕ → BloomFilter
  | 0 => f
  | n + 1 => (addTimes f x n).add x

/-! ### Range of the hash -/

theorem mask32_lt (x : ℕ) : mask32 x < 4294967296 :=
  Nat.mod_lt _ (by norm_num)

theorem mmh3u32_lt (bs : List ℕ) (seed : ℕ) : mmh3u32 bs seed < 4294967296 := by
  simp only [mmh3u32, fmix32]
  exact mask32_lt _

theorem mmh3hash_lower (bs : List ℕ) (seed : ℕ) :
    -2147483648 ≤ mmh3hash bs seed := by
  have h := mmh3u32_lt bs seed
  by_cases hu : mmh3u32 bs seed < 2147483648
  · simp [mmh3hash, hu]
    omega
  · simp [mmh3hash, hu]
    omega

theorem mmh3hash_upper (bs : List ℕ) (seed : ℕ) :
    mmh3hash bs seed < 2147483648 := by
  have h := mmh3u32_lt bs seed
  by_cases hu : mmh3u32 bs seed < 2147483648
  · simp [mmh3hash, hu]
  · simp [mmh3hash, hu]
    omega

/-! ### Bit-list lemmas -/

theorem setBits_cons (bits : List Bool) (d : ℕ) (ds : List ℕ) :
    setBits bits (d :: ds) = setBits (bits.set d true) ds := rfl

theorem length_setBits (ds : List ℕ) (bits : List Bool) :
    (setBits bits ds).length = bits.length := by
  induction ds generalizing bits with
  | nil => rfl
  | cons d ds ih => rw [setBits_cons, ih, List.length_set]

theorem getElem?_setBits (ds : List ℕ) (bits : List Bool) (j : ℕ) :
    (setBits bits ds)[j]? = if j ∈ ds ∧ j < bits.length then some true else bits[j]? := by
  induction ds generalizing bits with
  | nil => simp [setBits]
  | cons d ds ih =>
    rw [setBits_cons, ih, List.length_set, List.getElem?_set]
    by_cases hl : j < bits.length
    · by_cases hd : d = j
      · subst hd
        by_cases hm : d ∈ ds <;> simp [hm, hl, List.mem_cons]
      · have hd2 : ¬(j = d) := fun h => hd h.symm
        by_cases hm : j ∈ ds <;> simp [hm, hl, hd, hd2, List.mem_cons]
    · have hn : bits[j]? = none := List.getElem?_eq_none (by omega)
      by_cases hd : d = j <;> by_cases hm : j ∈ ds <;>
        simp [hm, hl, hd, hn, List.mem_cons]

theorem getBit_setBits (ds : List ℕ) (bits : List Bool) (j : ℕ) :
    getBit (setBits bits ds) j =
      if j ∈ ds ∧ j < bits.length then true else getBit bits j := by
  rw [getBit, getBit, List.getD_eq_getElem?_getD, List.getD_eq_getElem?_getD,
    getElem?_setBits]
  split <;> rfl

theorem getBit_setBits_of_mem (ds : List ℕ) (bits : List Bool) (j : ℕ)
    (hm : j ∈ ds) (hl : j < bits.length) : getBit (setBits bits ds) j = true := by
  rw [getBit_setBits, if_pos ⟨hm, hl⟩]

theorem getBit_setBits_mono (ds : List ℕ) (bits : List Bool) (j : ℕ)
    (h : getBit bits j = true) : getBit (setBits bits ds) j = true := by
  rw [getBit_setBits]
  split <;> simp [h]

theorem setBits_idem (ds : List ℕ) (bits : List Bool) :
    setBits (setBits bits ds) ds = setBits bits ds := by
  apply List.ext_getElem?
  intro j
  simp only [getElem?_setBits, length_setBits]
  by_cases hc : j ∈ ds ∧ j < bits.length <;> simp [hc]

theorem getBit_replicate_false (m j : ℕ) :
    getBit (List.replicate m false) j = false := by
  rw [getBit, List.getD_eq_getElem?_getD, List.getElem?_replicate]
  split <;> rfl

/-! ### Bridges between the methods and the bit-list view -/

namespace BloomFilter

theorem add_bit_array (f : BloomFilter) (x : List ℕ) :
    (f.add x).bit_array = setBits f.bit_array (f.digestIndices x) := by
  simp [add, digestIndices, digests, setBits, List.foldl_map, List.map_map,
    Function.comp]

theorem add_fp_prob (f : BloomFilter) (x : List ℕ) : (f.add x).fp_prob = f.fp_prob := rfl

theorem add_size (f : BloomFilter) (x : List ℕ) : (f.add x).size = f.size := rfl

theorem add_hash_count (f : BloomFilter) (x : List ℕ) :
    (f.add x).hash_count = f.hash_count := rfl

theorem add_length (f : BloomFilter) (x : List ℕ) :
    (f.add x).bit_array.length = f.bit_array.length := by
  rw [add_bit_array, length_setBits]

theorem checkFrom_eq_all (f : BloomFilter) (x : List ℕ) (l : List ℕ) :
    checkFrom f x l =
      l.all (fun i => getBit f.bit_array (mmh3hash x i % f.size).toNat) := by
  induction l with
  | nil => rfl
  | cons i l ih =>
    simp only [checkFrom, List.all_cons, ih, getBit]
    rcases h : f.bit_array.getD (mmh3hash x i % f.size).toNat false <;> simp [h]

theorem check_eq_all (f : BloomFilter) (x : List ℕ) :
    f.check x = (f.digestIndices x).all (getBit f.bit_array) := by
  rw [check, checkFrom_eq_all, digestIndices, digests, List.map_map, List.all_map]
  rfl

theorem check_eq_true_iff (f : BloomFilter) (x : List ℕ) :
    f.check x = true ↔ ∀ j ∈ f.digestIndices x, getBit f.bit_array j = true := by
  rw [check_eq_all, List.all_eq_true]

theorem check_eq_false_iff (f : BloomFilter) (x : List ℕ) :
    f.check x = false ↔ ∃ j ∈ f.digestIndices x, getBit f.bit_array j = false := by
  rw [← Bool.not_eq_true, check_eq_true_iff]
  push_neg
  simp only [Bool.not_eq_true]

theorem digestIndices_congr {f g : BloomFilter} (x : List ℕ)
    (hs : g.size = f.size) (hk : g.hash_count = f.hash_count) :
    g.digestIndices x = f.digestIndices x := by
  simp [digestIndices, digests, hs, hk]

theorem mem_digestIndices_lt {f : BloomFilter} (wf : f.WF) (x : List ℕ) :
    ∀ j ∈ f.digestIndices x, j < f.bit_array.length := by
  intro j hj
  simp only [digestIndices, digests, List.map_map, List.mem_map,
    List.mem_range] at hj
  obtain ⟨i, hi, rfl⟩ := hj
  have hk : 0 < f.hash_count := by omega
  have hs : 0 < f.size := wf.2.resolve_right (by omega)
  have h0 : 0 ≤ mmh3hash x i % f.size := Int.emod_nonneg _ (by omega)
  have h1 : mmh3hash x i % f.size < f.size := Int.emod_lt_of_pos _ hs
  rw [wf.1]
  simp only [Function.comp]
  omega

end BloomFilter

/-! ### The operation sequence view -/

theorem runOp_fp_prob (f : BloomFilter) (o : Op) : (runOp f o).fp_prob = f.fp_prob := by
  cases o <;> rfl

theorem runOp_size (f : BloomFilter) (o : Op) : (runOp f o).size = f.size := by
  cases o <;> rfl

theorem runOp_hash_count (f : BloomFilter) (o : Op) :
    (runOp f o).hash_count = f.hash_count := by
  cases o <;> rfl

theorem runOp_length (f : BloomFilter) (o : Op) :
    (runOp f o).bit_array.length = f.bit_array.length := by
  cases o with
  | add x => exact f.add_length x
  | check x => rfl

theorem runOp_getBit_mono (f : BloomFilter) (o : Op) (j : ℕ)
    (h : getBit f.bit_array j = true) : getBit (runOp f o).bit_array j = true := by
  cases o with
  | add x =>
    rw [runOp, BloomFilter.add_bit_array]
    exact getBit_setBits_mono _ _ _ h
  | check x => exact h

theorem runOps_cons (f : BloomFilter) (o : Op) (ops : List Op) :
    runOps f (o :: ops) = runOps (runOp f o) ops := rfl

theorem runOps_size (f : BloomFilter) (ops : List Op) : (runOps f ops).size = f.size := by
  induction ops generalizing f with
  | nil => rfl
  | cons o ops ih => rw [runOps_cons, ih, runOp_size]

theorem runOps_hash_count (f : BloomFilter) (ops : List Op) :
    (runOps f ops).hash_count = f.hash_count := by
  induction ops generalizing f with
  | nil => rfl
  | cons o ops ih => rw [runOps_cons, ih, runOp_hash_count]

theorem runOps_fp_prob (f : BloomFilter) (ops : List Op) :
    (runOps f ops).fp_prob = f.fp_prob := by
  induction ops generalizing f with
  | nil => rfl
  | cons o ops ih => rw [runOps_cons, ih, runOp_fp_prob]

theorem runOps_length (f : BloomFilter) (ops : List Op) :
    (runOps f ops).bit_array.length = f.bit_array.length := by
  induction ops generalizing f with
  | nil => rfl
  | cons o ops ih => rw [runOps_cons, ih, runOp_length]

theorem runOps_getBit_mono (f : BloomFilter) (ops : List Op) (j : ℕ)
    (h : getBit f.bit_array j = true) : getBit (runOps f ops).bit_array j = true := by
  induction ops generalizing f with
  | nil => exact h
  | cons o ops ih => exact ih _ (runOp_getBit_mono f o j h)

theorem runOps_WF {f : BloomFilter} (ops : List Op) (wf : f.WF) : (runOps f ops).WF := by
  constructor
  · rw [runOps_length, runOps_size, wf.1]
  · rw [runOps_size, runOps_hash_count]
    exact wf.2

/-! ### No false negatives, core form -/

theorem add_sets_digests {f : BloomFilter} (wf : f.WF) (x : List ℕ) :
    ∀ j ∈ f.digestIndices x, getBit (f.add x).bit_array j = true := by
  intro j hj
  rw [BloomFilter.add_bit_array]
  exact getBit_setBits_of_mem _ _ _ hj (BloomFilter.mem_digestIndices_lt wf x j hj)

theorem check_of_digests_true {f g : BloomFilter} (x : List ℕ)
    (hs : g.size = f.size) (hk : g.hash_count = f.hash_count)
    (hbits : ∀ j ∈ f.digestIndices x, getBit g.bit_array j = true) :
    g.check x = true := by
  rw [BloomFilter.check_eq_true_iff, BloomFilter.digestIndices_congr x hs hk]
  exact hbits

theorem check_runOps_after_add {f : BloomFilter} (wf : f.WF) (x : List ℕ)
    (ops : List Op) : (runOps (f.add x) ops).check x = true := by
  refine @check_of_digests_true f (runOps (f.add x) ops) x ?_ ?_ ?_
  · rw [runOps_size]; rfl
  · rw [runOps_hash_count]; rfl
  · intro j hj
    exact runOps_getBit_mono _ ops j (add_sets_digests wf x j hj)

/-! ### Idempotence of add -/

theorem add_add (f : BloomFilter) (x : List ℕ) : (f.add x).add x = f.add x := by
  apply BloomFilter.ext
  · rfl
  · rfl
  · rfl
  · rw [BloomFilter.add_bit_array (f.add x) x, BloomFilter.add_bit_array f x,
      BloomFilter.digestIndices_congr x (BloomFilter.add_size f x)
        (BloomFilter.add_hash_count f x),
      setBits_idem]

theorem addTimes_succ (f : BloomFilter) (x : List ℕ) (n : ℕ) :
    addTimes f x (n + 1) = (addTimes f x n).add x := rfl

theorem addTimes_eq_add {f : BloomFilter} (x : List ℕ) {N : ℕ} (hN : 1 ≤ N) :
    addTimes f x N = f.add x := by
  induction N with
  | zero => omega
  | succ n ih =>
    rcases Nat.eq_or_lt_of_le hN with h1 | h1
    · rw [← h1]
      rfl
    · rw [addTimes_succ, ih (by omega), add_add]

/-! ### Truncation toward zero -/

theorem intTrunc_of_nonneg {x : ℝ} (h : 0 ≤ x) : intTrunc x = ⌊x⌋ := if_pos h

theorem intTrunc_eq_of_le_of_lt {x : ℝ} (a : ℤ) (h0 : 0 ≤ x)
    (h1 : (a : ℝ) ≤ x) (h2 : x < a + 1) : intTrunc x = a := by
  rw [intTrunc_of_nonneg h0]
  exact Int.floor_eq_iff.mpr ⟨h1, by exact_mod_cast h2⟩

theorem intTrunc_zero : intTrunc 0 = 0 := by
  rw [intTrunc_of_nonneg le_rfl]
  exact Int.floor_zero

theorem intTrunc_nonneg {x : ℝ} (h : 0 ≤ x) : 0 ≤ intTrunc x := by
  rw [intTrunc_of_nonneg h]
  exact Int.floor_nonneg.mpr h

/-! ### Numeric bounds on the logarithms involved -/

theorem log_five_quarter_bounds :
    (681 : ℝ)/3072 ≤ Real.log (5/4) ∧ Real.log (5/4) ≤ (689 : ℝ)/3072 := by
  have hx : |(-(1/4) : ℝ)| < 1 := by
    rw [abs_lt]
    constructor <;> norm_num
  have h := Real.abs_log_sub_add_sum_range_le hx 4
  have hs : ∑ i ∈ Finset.range 4, (-(1/4) : ℝ) ^ (i + 1) / (i + 1) = -685/3072 := by
    simp [Finset.sum_range_succ]
    norm_num
  have h14 : (1 : ℝ) - -(1/4) = 5/4 := by norm_num
  have habs : |(-(1/4) : ℝ)| = 1/4 := by
    rw [abs_neg]
    exact abs_of_nonneg (by norm_num)
  rw [hs, h14, habs] at h
  have h' := abs_le.mp h
  constructor <;> [linarith [h'.1]; linarith [h'.2]]

theorem log_nine_tenth_bounds :
    -(949 : ℝ)/9000 ≤ Real.log (9/10) ∧ Real.log (9/10) ≤ -(947 : ℝ)/9000 := by
  have hx : |(1/10 : ℝ)| < 1 := by
    rw [abs_lt]
    constructor <;> norm_num
  have h := Real.abs_log_sub_add_sum_range_le hx 3
  have hs : ∑ i ∈ Finset.range 3, (1/10 : ℝ) ^ (i + 1) / (i + 1) = 79/750 := by
    simp [Finset.sum_range_succ]
    norm_num
  have h14 : (1 : ℝ) - 1/10 = 9/10 := by norm_num
  have habs : |(1/10 : ℝ)| = 1/10 := abs_of_nonneg (by norm_num)
  rw [hs, h14, habs] at h
  have h' := abs_le.mp h
  constructor <;> [linarith [h'.1]; linarith [h'.2]]

theorem log_twenty_eq : Real.log 20 = 4 * Real.log 2 + Real.log (5/4) := by
  have h : (20 : ℝ) = 2 ^ 4 * (5/4) := by norm_num
  rw [h, Real.log_mul (by norm_num) (by norm_num), Real.log_pow]
  norm_num

namespace BloomFilter

theorem get_size_20_005 : get_size 20 (0.05) = 124 := by
  have hL1 : (0.6931471803 : ℝ) < Real.log 2 := Real.log_two_gt_d9
  have hL2 : Real.log 2 < 0.6931471808 := Real.log_two_lt_d9
  have hQ := log_five_quarter_bounds
  have hLpos : (0 : ℝ) < Real.log 2 := by linarith
  have hL2pos : (0 : ℝ) < Real.log 2 ^ 2 := by positivity
  have hlog005 : Real.log (0.05 : ℝ) = -Real.log 20 := by
    rw [show (0.05 : ℝ) = 20⁻¹ by norm_num, Real.log_inv]
  have hsqu : Real.log 2 ^ 2 ≤ (0.6931471808 : ℝ) ^ 2 := by nlinarith
  have hsql : (0.6931471803 : ℝ) ^ 2 ≤ Real.log 2 ^ 2 := by nlinarith
  rw [get_size]
  have harg : -(((20 : ℤ) : ℝ) * Real.log (0.05 : ℝ)) / Real.log 2 ^ 2 =
      20 * Real.log 20 / Real.log 2 ^ 2 := by
    rw [hlog005]
    push_cast
    ring
  rw [harg]
  have hlo : (124 : ℝ) ≤ 20 * Real.log 20 / Real.log 2 ^ 2 := by
    rw [le_div_iff₀ hL2pos, log_twenty_eq]
    nlinarith [hQ.1]
  have hhi : 20 * Real.log 20 / Real.log 2 ^ 2 < 125 := by
    rw [div_lt_iff₀ hL2pos, log_twenty_eq]
    nlinarith [hQ.2]
  exact intTrunc_eq_of_le_of_lt 124 (by linarith) (by exact_mod_cast hlo)
    (by push_cast; linarith)

theorem get_hash_count_124_20 : get_hash_count 124 20 = 4 := by
  have hL1 : (0.6931471803 : ℝ) < Real.log 2 := Real.log_two_gt_d9
  have hL2 : Real.log 2 < 0.6931471808 := Real.log_two_lt_d9
  rw [get_hash_count]
  have harg : ((124 : ℤ) : ℝ) / ((20 : ℤ) : ℝ) * Real.log 2 =
      (31 : ℝ)/5 * Real.log 2 := by
    push_cast
    ring
  rw [harg]
  exact intTrunc_eq_of_le_of_lt 4 (by linarith) (by push_cast; linarith)
    (by push_cast; linarith)

theorem get_size_1_09 : get_size 1 (9/10) = 0 := by
  have hL1 : (0.6931471803 : ℝ) < Real.log 2 := Real.log_two_gt_d9
  have hL2 : Real.log 2 < 0.6931471808 := Real.log_two_lt_d9
  have hR := log_nine_tenth_bounds
  have hL2pos : (0 : ℝ) < Real.log 2 ^ 2 := by positivity
  have hsql : (0.6931471803 : ℝ) ^ 2 ≤ Real.log 2 ^ 2 := by nlinarith
  rw [get_size]
  have harg : -(((1 : ℤ) : ℝ) * Real.log (9/10)) / Real.log 2 ^ 2 =
      -Real.log (9/10) / Real.log 2 ^ 2 := by
    push_cast
    ring
  rw [harg]
  have h0 : (0 : ℝ) ≤ -Real.log (9/10) / Real.log 2 ^ 2 :=
    div_nonneg (by linarith [hR.2]) hL2pos.le
  have h1 : -Real.log (9/10) / Real.log 2 ^ 2 < 1 := by
    rw [div_lt_one hL2pos]
    nlinarith [hR.1]
  exact intTrunc_eq_of_le_of_lt 0 h0 (by push_cast; linarith) (by push_cast; linarith)

theorem get_hash_count_zero_left (n : ℤ) : get_hash_count 0 n = 0 := by
  simp [get_hash_count, intTrunc_zero]

theorem get_size_1_1 : get_size 1 1 = 0 := by
  simp [get_size, Real.log_one, intTrunc_zero]

end BloomFilter

/-! ### What a successful construction looks like -/

namespace BloomFilter

theorem initBF_ok_iff {n : ℤ} {p : ℝ} {f : BloomFilter} :
    initBF n p = .ok f ↔
      ¬p ≤ 0 ∧ n ≠ 0 ∧ ¬get_size n p < 0 ∧
        f = ⟨p, get_size n p, get_hash_count (get_size n p) n,
             List.replicate (get_size n p).toNat false⟩ := by
  unfold initBF
  by_cases h1 : p ≤ 0
  · simp [h1]
  · by_cases h2 : n = 0
    · simp [h1, h2]
    · by_cases h3 : get_size n p < 0
      · simp [h1, h2, h3]
      · simp [h1, h2, h3, eq_comm]

theorem initBF_WF {n : ℤ} {p : ℝ} {f : BloomFilter} (h : initBF n p = .ok f) :
    f.WF := by
  obtain ⟨h1, h2, h3, rfl⟩ := initBF_ok_iff.mp h
  constructor
  · exact List.length_replicate _ _
  · by_cases hs : get_size n p = 0
    · right
      show get_hash_count (get_size n p) n ≤ 0
      rw [hs, get_hash_count_zero_left]
    · left
      show 0 < get_size n p
      omega

theorem init_1_09 : initBF 1 (9/10) = .ok ⟨9/10, 0, 0, []⟩ := by
  rw [initBF_ok_iff]
  refine ⟨by norm_num, by norm_num, by rw [get_size_1_09]; omega, ?_⟩
  rw [get_size_1_09, get_hash_count_zero_left]
  rfl

theorem init_1_1 : initBF 1 1 = .ok ⟨1, 0, 0, []⟩ := by
  rw [initBF_ok_iff]
  refine ⟨by norm_num, by norm_num, by rw [get_size_1_1]; omega, ?_⟩
  rw [get_size_1_1, get_hash_count_zero_left]
  rfl

theorem init_20_005 :
    initBF 20 (0.05) = .ok ⟨0.05, 124, 4, List.replicate 124 false⟩ := by
  rw [initBF_ok_iff]
  refine ⟨by norm_num, by norm_num, by rw [get_size_20_005]; omega, ?_⟩
  rw [get_size_20_005, get_hash_count_124_20]
  rfl

end BloomFilter

/-! ### The claims -/

theorem check_false_of_fresh {f : BloomFilter} (hk : 1 ≤ f.hash_count)
    (hbits : f.bit_array = List.replicate f.size.toNat false) (x : List ℕ) :
    f.check x = false := by
  rw [BloomFilter.check_eq_false_iff]
  refine ⟨(mmh3hash x 0 % f.size).toNat, ?_, ?_⟩
  · simp only [BloomFilter.digestIndices, BloomFilter.digests, List.map_map,
      List.mem_map, List.mem_range, Function.comp]
    exact ⟨0, by omega, rfl⟩
  · rw [hbits]
    exact getBit_replicate_false _ _

/-- C1: on a constructed filter, once `add(x)` has been called, every
later `check(x)` — after any further sequence of `add`/`check` calls —
returns `True`. -/
theorem C1_no_false_negatives {n : ℤ} {p : ℝ} {f : BloomFilter}
    (hinit : BloomFilter.initBF n p = .ok f) (pre : List Op) (x : List ℕ)
    (post : List Op) :
    (runOps (BloomFilter.add (runOps f pre) x) post).check x = true :=
  check_runOps_after_add (runOps_WF pre (BloomFilter.initBF_WF hinit)) x post

theorem C1_no_false_negatives_witness :
    BloomFilter.initBF 20 (0.05) = .ok ⟨0.05, 124, 4, List.replicate 124 false⟩ ∧
    (runOps (BloomFilter.add
        (runOps ⟨0.05, 124, 4, List.replicate 124 false⟩ [Op.add [104, 105]])
        [1, 2, 3]) [Op.add [7], Op.check [9]]).check [1, 2, 3] = true :=
  ⟨BloomFilter.init_20_005,
    C1_no_false_negatives BloomFilter.init_20_005 [Op.add [104, 105]] [1, 2, 3]
      [Op.add [7], Op.check [9]]⟩

/-- C2, counterexample: `items_count = 1`, `fp_prob = 9/10` is inside the
documented domain, yet the freshly constructed filter (whose derived
`hash_count` is `0`) answers `True` to a `check` before any `add`. -/
theorem C2_counterexample :
    (0 : ℤ) < 1 ∧ (0 : ℝ) < 9/10 ∧ (9/10 : ℝ) < 1 ∧
    BloomFilter.initBF 1 (9/10) = .ok ⟨9/10, 0, 0, []⟩ ∧
    BloomFilter.check ⟨9/10, 0, 0, []⟩ [97, 98, 99] = true :=
  ⟨by norm_num, by norm_num, by norm_num, BloomFilter.init_1_09, by decide⟩

/-- C2, amended: a freshly constructed filter answers `False` to every
`check` before any `add`, provided its derived `hash_count` is at least
one (the truncating formula can also yield `hash_count = 0`, and then
every `check` returns `True`). -/
theorem C2_empty_filter {n : ℤ} {p : ℝ} {f : BloomFilter}
    (hinit : BloomFilter.initBF n p = .ok f) (hk : 1 ≤ f.hash_count)
    (x : List ℕ) : f.check x = false := by
  obtain ⟨h1, h2, h3, rfl⟩ := BloomFilter.initBF_ok_iff.mp hinit
  exact check_false_of_fresh hk rfl x

theorem C2_empty_filter_witness :
    BloomFilter.initBF 20 (0.05) = .ok ⟨0.05, 124, 4, List.replicate 124 false⟩ ∧
    (1 : ℤ) ≤ (⟨(0.05 : ℝ), 124, 4, List.replicate 124 false⟩ : BloomFilter).hash_count ∧
    BloomFilter.check ⟨0.05, 124, 4, List.replicate 124 false⟩ [103, 101] = false :=
  ⟨BloomFilter.init_20_005, by decide,
    C2_empty_filter BloomFilter.init_20_005 (by decide) [103, 101]⟩

/-- C3, counterexample: the construction `items_count = 1`,
`fp_prob = 9/10` (inside the documented domain) yields `size = 0` and
`hash_count = 0`, refuting `size ≥ 1 ∧ hash_count ≥ 1`. -/
theorem C3_counterexample :
    (0 : ℤ) < 1 ∧ (0 : ℝ) < 9/10 ∧ (9/10 : ℝ) < 1 ∧
    BloomFilter.initBF 1 (9/10) = .ok ⟨9/10, 0, 0, []⟩ ∧
    ¬(1 ≤ (⟨(9 : ℝ)/10, 0, 0, []⟩ : BloomFilter).size ∧
      1 ≤ (⟨(9 : ℝ)/10, 0, 0, []⟩ : BloomFilter).hash_count) :=
  ⟨by norm_num, by norm_num, by norm_num, BloomFilter.init_1_09, by decide⟩

/-- C3, amended: every successful construction with `items_count ≥ 1`
yields `size ≥ 0` and `hash_count ≥ 0` (zero is possible, so `≥ 1`
fails), and neither field ever changes under later operations. -/
theorem C3_size_invariants {n : ℤ} {p : ℝ} {f : BloomFilter}
    (hinit : BloomFilter.initBF n p = .ok f) (hn : 1 ≤ n) :
    0 ≤ f.size ∧ 0 ≤ f.hash_count ∧
      ∀ ops : List Op, (runOps f ops).size = f.size ∧
        (runOps f ops).hash_count = f.hash_count := by
  obtain ⟨h1, h2, h3, rfl⟩ := BloomFilter.initBF_ok_iff.mp hinit
  refine ⟨by show 0 ≤ BloomFilter.get_size n p; omega, ?_,
    fun ops => ⟨runOps_size _ ops, runOps_hash_count _ ops⟩⟩
  show 0 ≤ BloomFilter.get_hash_count (BloomFilter.get_size n p) n
  rw [BloomFilter.get_hash_count]
  apply intTrunc_nonneg
  apply mul_nonneg
  · apply div_nonneg
    · exact_mod_cast (by omega : (0 : ℤ) ≤ BloomFilter.get_size n p)
    · exact_mod_cast (by omega : (0 : ℤ) ≤ n)
  · exact Real.log_nonneg one_le_two

theorem C3_size_invariants_witness :
    BloomFilter.initBF 1 1 = .ok ⟨1, 0, 0, []⟩ ∧ (1 : ℤ) ≤ 1 ∧
    0 ≤ (⟨(1 : ℝ), 0, 0, []⟩ : BloomFilter).size ∧
    0 ≤ (⟨(1 : ℝ), 0, 0, []⟩ : BloomFilter).hash_count ∧
    (runOps ⟨1, 0, 0, []⟩ [Op.add [1], Op.check [2]]).size = 0 ∧
    (runOps ⟨1, 0, 0, []⟩ [Op.add [1], Op.check [2]]).hash_count = 0 := by
  have h := C3_size_invariants BloomFilter.init_1_1 le_rfl
  exact ⟨BloomFilter.init_1_1, le_rfl, h.1, h.2.1,
    (h.2.2 [Op.add [1], Op.check [2]]).1, (h.2.2 [Op.add [1], Op.check [2]]).2⟩

/-- C4, counterexample: `fp_prob = 1` lies outside the documented open
interval `(0, 1)`, yet construction succeeds — the code performs no
parameter validation, so no `InvalidParameter` failure exists. -/
theorem C4_counterexample :
    ¬((0 : ℝ) < 1 ∧ (1 : ℝ) < 1) ∧
    BloomFilter.initBF 1 1 = .ok ⟨1, 0, 0, []⟩ :=
  ⟨by norm_num, BloomFilter.init_1_1⟩

/-- C4, amended: construction does not validate its parameters and no
`InvalidParameter` condition exists; it raises a `math.log` domain error
when `fp_prob ≤ 0` and a `ZeroDivisionError` when `items_count = 0`,
and for `1 ≤ items_count ≤ 2^53` with `0 < fp_prob ≤ 1` it succeeds —
in particular at the out-of-domain value `fp_prob = 1`.  The success
conjunct is stated only up to `2^53` because beyond the double range
CPython raises `OverflowError` converting `items_count` to float, a
path the real-valued model does not capture; below `2^53` the
conversion is exact and `|items_count · log fp_prob| ≤ 2^53 · 745` is
far from any float overflow, so the model and the program agree. -/
theorem C4_construction_failures (n : ℤ) (p : ℝ) :
    (p ≤ 0 → BloomFilter.initBF n p = .error .logDomain) ∧
    (0 < p → n = 0 → BloomFilter.initBF n p = .error .zeroDivision) ∧
    (1 ≤ n → n ≤ 2 ^ 53 → 0 < p → p ≤ 1 → ∃ f, BloomFilter.initBF n p = .ok f) := by
  refine ⟨fun h => ?_, fun hp hn => ?_, fun hn hn2 hp hp1 => ?_⟩
  · simp [BloomFilter.initBF, h]
  · simp [BloomFilter.initBF, hn, not_le.mpr hp]
  · have hsize : 0 ≤ BloomFilter.get_size n p := by
      rw [BloomFilter.get_size]
      apply intTrunc_nonneg
      apply div_nonneg
      · have hlog : Real.log p ≤ 0 := Real.log_nonpos hp.le hp1
        have hncast : (0 : ℝ) ≤ (n : ℝ) := by
          exact_mod_cast (by omega : (0 : ℤ) ≤ n)
        nlinarith
      · positivity
    refine ⟨⟨p, BloomFilter.get_size n p,
      BloomFilter.get_hash_count (BloomFilter.get_size n p) n,
      List.replicate (BloomFilter.get_size n p).toNat false⟩, ?_⟩
    rw [BloomFilter.initBF_ok_iff]
    exact ⟨not_le.mpr hp, by omega, by omega, rfl⟩

theorem C4_construction_failures_witness :
    BloomFilter.initBF 1 0 = .error BloomFilter.InitError.logDomain ∧
    BloomFilter.initBF 0 (1/2) = .error BloomFilter.InitError.zeroDivision ∧
    BloomFilter.initBF 1 1 = .ok ⟨1, 0, 0, []⟩ :=
  ⟨(C4_construction_failures 1 0).1 le_rfl,
    (C4_construction_failures 0 (1/2)).2.1 (by norm_num) rfl,
    BloomFilter.init_1_1⟩

/-- C5: `check` returns `False` exactly when some probed bit is unset,
`True` exactly when all probed bits are set, and `add` writes exactly
the same index list (`digests`) that `check` probes. -/
theorem C5_check_contract (f : BloomFilter) (x : List ℕ) :
    (f.check x = false ↔ ∃ j ∈ f.digestIndices x, getBit f.bit_array j = false) ∧
    (f.check x = true ↔ ∀ j ∈ f.digestIndices x, getBit f.bit_array j = true) ∧
    (f.add x).bit_array = setBits f.bit_array (f.digestIndices x) :=
  ⟨f.check_eq_false_iff x, f.check_eq_true_iff x, f.add_bit_array x⟩

theorem C5_check_contract_witness :
    (BloomFilter.check ⟨0, 3, 2, [false, true, false]⟩ [5] = false ↔
      ∃ j ∈ BloomFilter.digestIndices ⟨0, 3, 2, [false, true, false]⟩ [5],
        getBit [false, true, false] j = false) ∧
    (BloomFilter.check ⟨0, 3, 2, [false, true, false]⟩ [5] = true ↔
      ∀ j ∈ BloomFilter.digestIndices ⟨0, 3, 2, [false, true, false]⟩ [5],
        getBit [false, true, false] j = true) ∧
    (BloomFilter.add ⟨0, 3, 2, [false, true, false]⟩ [5]).bit_array =
      setBits [false, true, false]
        (BloomFilter.digestIndices ⟨0, 3, 2, [false, true, false]⟩ [5]) :=
  C5_check_contract ⟨0, 3, 2, [false, true, false]⟩ [5]

/-- C6: calling `add` with the same item `N ≥ 1` times leaves the filter
in exactly the state one call produces. -/
theorem C6_add_idempotent {f : BloomFilter} (x : List ℕ) {N : ℕ}
    (_wf : f.WF) (hN : 1 ≤ N) : addTimes f x N = f.add x :=
  addTimes_eq_add x hN

theorem C6_add_idempotent_witness :
    (⟨(0 : ℝ), 5, 2, List.replicate 5 false⟩ : BloomFilter).WF ∧ 1 ≤ 3 ∧
    addTimes ⟨0, 5, 2, List.replicate 5 false⟩ [42] 3 =
      BloomFilter.add ⟨0, 5, 2, List.replicate 5 false⟩ [42] :=
  ⟨by decide, by norm_num, C6_add_idempotent [42] (by decide) (by norm_num)⟩

/-- C7: `add` preserves `fp_prob`, `size`, `hash_count` and the bit
array's length, only ever turns bits from `false` to `true`, and
`check` leaves the whole state unchanged. -/
theorem C7_frame (f : BloomFilter) (x : List ℕ) :
    (f.add x).fp_prob = f.fp_prob ∧ (f.add x).size = f.size ∧
    (f.add x).hash_count = f.hash_count ∧
    (f.add x).bit_array.length = f.bit_array.length ∧
    (∀ j, getBit f.bit_array j = true → getBit (f.add x).bit_array j = true) ∧
    runOp f (Op.check x) = f :=
  ⟨rfl, rfl, rfl, f.add_length x,
    fun j h => by rw [f.add_bit_array x]; exact getBit_setBits_mono _ _ _ h, rfl⟩

theorem C7_frame_witness :
    getBit [false, true, false] 1 = true ∧
    getBit ((BloomFilter.add ⟨0, 3, 1, [false, true, false]⟩ [2]).bit_array) 1 = true ∧
    (BloomFilter.add ⟨0, 3, 1, [false, true, false]⟩ [2]).size = 3 :=
  ⟨by decide,
    (C7_frame ⟨0, 3, 1, [false, true, false]⟩ [2]).2.2.2.2.1 1 (by decide),
    (C7_frame ⟨0, 3, 1, [false, true, false]⟩ [2]).2.1⟩

/-- C8: with a positive `size`, every hash-derived position in `digests`
is in `[0, size)` — the raw 32-bit hash itself always lies in
`[-2^31, 2^31)`, so it can be negative, and the Python `%` still lands
in range. -/
theorem C8_indices_in_range (f : BloomFilter) (x : List ℕ) (hs : 0 < f.size) :
    (∀ d ∈ f.digests x, 0 ≤ d ∧ d < f.size) ∧
    (∀ i : ℕ, -2147483648 ≤ mmh3hash x i ∧ mmh3hash x i < 2147483648) := by
  constructor
  · intro d hd
    simp only [BloomFilter.digests, List.mem_map, List.mem_range] at hd
    obtain ⟨i, _, rfl⟩ := hd
    exact ⟨Int.emod_nonneg _ (by omega), Int.emod_lt_of_pos _ hs⟩
  · exact fun i => ⟨mmh3hash_lower x i, mmh3hash_upper x i⟩

theorem C8_indices_in_range_witness :
    (0 : ℤ) < (⟨(0 : ℝ), 5, 2, List.replicate 5 false⟩ : BloomFilter).size ∧
    (0 ≤ mmh3hash [200] 0 % 5 ∧ mmh3hash [200] 0 % 5 < 5) ∧
    (-2147483648 ≤ mmh3hash [200] 0 ∧ mmh3hash [200] 0 < 2147483648) := by
  have h := C8_indices_in_range ⟨0, 5, 2, List.replicate 5 false⟩ [200] (by decide)
  exact ⟨by decide, h.1 (mmh3hash [200] 0 % 5) (by decide), h.2 0⟩

/-- C9: both sizing formulas are the stated real-valued expressions
truncated toward zero, and for `n = 20`, `p = 0.05` they produce a bit
array of `124` slots and `4` hash rounds. -/
theorem C9_sizing_formulas :
    (∀ (n : ℤ) (p : ℝ), BloomFilter.get_size n p =
        intTrunc (-((n : ℝ) * Real.log p) / Real.log 2 ^ 2)) ∧
    (∀ m n : ℤ, BloomFilter.get_hash_count m n =
        intTrunc ((m : ℝ) / (n : ℝ) * Real.log 2)) ∧
    BloomFilter.get_size 20 (0.05) = 124 ∧
    BloomFilter.get_hash_count (BloomFilter.get_size 20 (0.05)) 20 = 4 :=
  ⟨fun _ _ => rfl, fun _ _ => rfl, BloomFilter.get_size_20_005, by
    rw [BloomFilter.get_size_20_005]
    exact BloomFilter.get_hash_count_124_20⟩

/-- C10: whenever construction produces `hash_count = 0`, the loops of
`add` and `check` run zero rounds, so `add` is a no-op and `check`
returns `True` for every item, even with no adds. -/
theorem C10_degenerate_hash_count {n : ℤ} {p : ℝ} {f : BloomFilter}
    (_hinit : BloomFilter.initBF n p = .ok f) (hk : f.hash_count = 0)
    (x : List ℕ) : f.add x = f ∧ f.check x = true := by
  constructor
  · apply BloomFilter.ext
    · rfl
    · rfl
    · rfl
    · rw [BloomFilter.add_bit_array]
      simp [BloomFilter.digestIndices, BloomFilter.digests, hk, setBits]
  · rw [BloomFilter.check]
    simp [hk, BloomFilter.checkFrom]

theorem C10_degenerate_hash_count_witness :
    BloomFilter.initBF 1 (9/10) = .ok ⟨9/10, 0, 0, []⟩ ∧
    (⟨(9 : ℝ)/10, 0, 0, []⟩ : BloomFilter).hash_count = 0 ∧
    BloomFilter.add ⟨9/10, 0, 0, []⟩ [7] = ⟨9/10, 0, 0, []⟩ ∧
    BloomFilter.check ⟨9/10, 0, 0, []⟩ [7] = true := by
  have h := C10_degenerate_hash_count BloomFilter.init_1_09 rfl [7]
  exact ⟨BloomFilter.init_1_09, rfl, h.1, h.2⟩
